import Mathlib

/-!
Verification of the hazard-pointer domain and the lock-free ordered list of
this repository, as a shallow embedding of the C sources.  Pure fragments of
the C functions become Lean functions; the sequential (no concurrent mutator)
executions of the list operations become functions on an explicit list state;
machine words (`uintptr_t`) become `Nat` (no arithmetic here ever exceeds the
word range, so no modulus is needed, except that the tail sentinel key
`UINTPTR_MAX` is spelled out).
-/

namespace HazardPtr

/-! ## Constants from the source -/

/-- Constant `HP_MAX_THREADS` (both sources). -/
def HP_MAX_THREADS : Nat := 128

/-- Constant `HP_MAX_HPS` (both sources); named K in the HP paper. -/
def HP_MAX_HPS : Nat := 5

/-- Constant `CLPAD = 128 / sizeof(uintptr_t) = 16` (both sources). -/
def CLPAD : Nat := 16

/-- Constant `HP_THRESHOLD_R` (both sources); named R in the HP paper, hard-coded 0. -/
def HP_THRESHOLD_R : Nat := 0

/-- Constant `HP_MAX_RETIRED = HP_MAX_THREADS * HP_MAX_HPS` (both sources). -/
def HP_MAX_RETIRED : Nat := HP_MAX_THREADS * HP_MAX_HPS

/-- Key of the tail sentinel: `UINTPTR_MAX` on a 64-bit target
(`list_node_new(UINTPTR_MAX)` in `list_new`, both sources). -/
def tailKey : Nat := 2 ^ 64 - 1

/-! ## Mark-bit helpers (`is_marked`, `get_marked`, `get_unmarked` macros)

The C macros act on a `uintptr_t` word whose low bit is the logical-deletion
mark: `is_marked(p) = p & 1`, `get_marked(p) = p | 1`,
`get_unmarked(p) = p & ~1`.  On `Nat` (words are below `2^64`, and `& ~1`
only clears the low bit) these are exactly the following. -/

/-- Macro `is_marked(p) = (bool)(p & 0x01)`. -/
def is_marked (p : Nat) : Bool := p % 2 == 1

/-- Macro `get_marked(p) = p | 0x01`. -/
def get_marked (p : Nat) : Nat := p - p % 2 + 1

/-- Macro `get_unmarked(p) = p & ~0x01`. -/
def get_unmarked (p : Nat) : Nat := p - p % 2

/-! ## Hazard-pointer domain, array form (rbtree.h lines 981-1123)

A thread's hazard slots hold word values (0 = no protection).  The whole slot
table is `slots : List (List Nat)`: one row per thread.  The per-thread
retire list of the array form is a `List Nat` of retired words (the dense
array `rl->list` with its count `rl->size`). -/

/-- The double probe loop of the array-form scan
(`for itid ... for ihp ... if (atomic_load(&hp->hp[itid][ihp]) == obj)`):
true iff some thread currently publishes `obj` in some slot.  The C loop runs
over every thread (including the caller) and every slot index below
`max_hps`; membership in the table is order-independent. -/
def hpScanHit (slots : List (List Nat)) (obj : Nat) : Bool :=
  slots.any (fun row => row.any (fun v => v == obj))

/-- The scan loop of the array-form `list_hp_retire` (rbtree.h:1099-1122),
executed sequentially on the retire array.  Returns
(retire list after the scan, words passed to the deleter, in order).
The C loop is `for (iret = 0; iret < rl->size; iret++)`; when entry `iret`
is unprotected it is removed by `memmove` compaction and `rl->size--`, the
deleter runs on it, and then `iret++` still advances - so the entry that
slid into position `iret` (the second alternative of the unprotected case)
is never examined by this scan and stays in the list. -/
def scanLoop (prot : Nat → Bool) : List Nat → List Nat × List Nat
  | [] => ([], [])
  | a :: rest =>
    if prot a then
      let r := scanLoop prot rest
      (a :: r.1, r.2)
    else
      match rest with
      | [] => ([], [a])
      | b :: rest2 =>
        let r := scanLoop prot rest2
        (b :: r.1, a :: r.2)

/-- Array-form `list_hp_retire` (rbtree.h:1089-1123): append `ptr` to the
calling thread's retire array, early-return when the count is below
`HP_THRESHOLD_R`, otherwise run the scan.  Result:
(retire list after the call, deleted words, whether the scan ran). -/
def list_hp_retire (slots : List (List Nat)) (rl : List Nat) (ptr : Nat) :
    List Nat × List Nat × Bool :=
  let rl1 := rl ++ [ptr]
  if rl1.length < HP_THRESHOLD_R then (rl1, [], false)
  else
    let s := scanLoop (hpScanHit slots) rl1
    (s.1, s.2, true)

/-- Indexed-form `list_hp_retire` threshold branch (part_000:151-161), at the
level of the retire-tree record count: `rbtree_insert` unconditionally does
`root->cnt++` (rbtree.h:192), then the branch `if (rl->cnt < HP_THRESHOLD_R)
return;` decides whether the scan part runs.  `true` means the scan runs. -/
def list_hp_retire_tree_scans (cnt : Nat) : Bool :=
  !(cnt + 1 < HP_THRESHOLD_R)

/-! ## Retire-index tree (rbtree.h)

For `rbtree_clean` the relevant shape is a finite binary tree of records
(each record is a `retirelist_t` carrying the retired word `ptr`); `nil` is
the sentinel leaf `&root->nil`. -/

/-- A well-formed retire-index tree: `nil` is the `&root->nil` sentinel,
`node d l r` a tree node whose record carries the word `d`. -/
inductive RBTree where
  | nil : RBTree
  | node (data : Nat) (l : RBTree) (r : RBTree) : RBTree
deriving DecidableEq, Repr

/-- The records `_rbtree_clean` (rbtree.h:197-208) passes to `freefunc`, in
call order: the function saves both children, frees the node, then recurses
into the saved left and right subtrees (a preorder walk). -/
def rbtree_clean_visits : RBTree → List Nat
  | .nil => []
  | .node d l r => d :: (rbtree_clean_visits l ++ rbtree_clean_visits r)

/-- The records stored in a retire-index tree, read off independently of the
clean-up walk (inorder). -/
def treeRecords : RBTree → List Nat
  | .nil => []
  | .node d l r => treeRecords l ++ d :: treeRecords r

/-! ## `list_hp_new` (rbtree.h:1013-1036 array form, part_000:61-80 indexed
form)

Both allocate, per potential thread, a slot row of `CLPAD * 2 = 32` words
(`calloc`, so zero-filled; the loop then re-stores 0 into the first
`max_hps` of them) and an empty retire container: the array form a
zero-count array, the indexed form a root with `RB_ROOT_INIT` (head =
sentinel nil, `cnt = 0`). -/

/-- State of the array-form hazard-pointer domain right after `list_hp_new`. -/
structure HPArrayDomain where
  max_hps : Nat
  hp : List (List Nat)
  rl : List (List Nat)
deriving Repr

/-- Array-form `list_hp_new(max_hps, deletefunc)` (rbtree.h:1013-1036); the
deleter is a callback and does not enter the state. -/
def list_hp_new (max_hps : Nat) : HPArrayDomain :=
  let m := if max_hps = 0 then HP_MAX_HPS else max_hps
  { max_hps := m
    hp := List.replicate HP_MAX_THREADS (List.replicate (CLPAD * 2) 0)
    rl := List.replicate HP_MAX_THREADS [] }

/-- State of the indexed-form hazard-pointer domain right after
`list_hp_new`: per thread, the retire tree and its `cnt`. -/
structure HPTreeDomain where
  max_hps : Nat
  hp : List (List Nat)
  rl : List (RBTree × Nat)
deriving Repr

/-- Indexed-form `list_hp_new(max_hps, deletefunc)` (part_000:61-80). -/
def list_hp_new_tree (max_hps : Nat) : HPTreeDomain :=
  let m := if max_hps = 0 then HP_MAX_HPS else max_hps
  { max_hps := m
    hp := List.replicate HP_MAX_THREADS (List.replicate (CLPAD * 2) 0)
    rl := List.replicate HP_MAX_THREADS (RBTree.nil, 0) }

/-- Function `list_hp_clear` (both sources): store 0 into every slot of the calling
thread's row. -/
def list_hp_clear (slots : List Nat) : List Nat :=
  slots.map (fun _ => 0)

/-! ## The ordered lock-free list, sequential executions

A node of the chain: `addr` is the 128-byte-aligned address that
`aligned_alloc` returned for it (only its low bit matters here), `key` the
node key, `marked` whether the node's own `next` word carries the mark bit.

State of the conservative (part_000) list: the sequence of nodes reachable
from the word `list->head` up to but excluding the tail sentinel.  Right
after `list_new` this chain is `[head0]` where `head0` is the original key-0
head sentinel; `list_insert` installs new nodes by a CAS on `list->head`
itself when `find` did not advance, so the key-0 sentinel drifts and in every
reachable state it is the last chain node before tail. -/
structure Node where
  addr : Nat
  key : Nat
  marked : Bool
deriving DecidableEq, Repr

/-- Sequential execution of the conservative `__list_find`
(part_000:246-332) on the chain strictly before the tail sentinel.  No CAS
can fail and no consistency re-check can differ, so the run never restarts;
the result is `(return value, index of the node the code leaves in
*par_curr)`.  Per iteration, with `next` loaded from curr's own `next` word:

* `curr` marked: the re-read check (line 276, `reload != get_unmarked(next)`)
  observes `next` marked and breaks, returning false with this `curr`;
* else if curr's successor is the tail (line 281): break, returning false
  with this `curr` - the code never steps onto the tail itself;
* else if `curr->key < *key` (line 293): advance `prev` and `curr`;
* else return `curr->key == *key` with this `curr` (line 298).

The unlink-and-retire branch (lines 313-323) needs `next` marked after the
line-276 check already saw the same word unmarked; a marked `next` word is
never modified again, so that branch is unreachable in a sequential run. -/
def findAux (K : Nat) : List Node → Bool × Nat
  | [] => (false, 0)
  | [_] => (false, 0)
  | c :: c2 :: rest =>
    if c.marked then (false, 0)
    else if c.key < K then
      let r := findAux K (c2 :: rest)
      (r.1, r.2 + 1)
    else (c.key == K, 0)

/-- Sequential `list_insert` (part_000:334-356).  `na` is the address
`list_node_new` returned for the fresh node.  When `__list_find` returns
true the fresh node is destroyed and the chain is unchanged; otherwise
`node->next` is set to `curr` and the CAS on `*prev` (which cannot fail
sequentially) links the node in right before `curr`.  Both paths run
`list_hp_clear`.  Result: (return value, chain after, slot row after). -/
def list_insert (chain : List Node) (K : Nat) (na : Nat) (slots : List Nat) :
    Bool × List Node × List Nat :=
  let f := findAux K chain
  if f.1 then (false, chain, list_hp_clear slots)
  else (true, chain.insertIdx f.2 ⟨na, K, false⟩, list_hp_clear slots)

/-- Sequential `list_delete` (part_000:363-389).  When `__list_find` returns
false: `list_hp_clear`, return false.  When it returns true, `curr` is
unmarked, so the mark CAS on `curr->next` succeeds, and the unlink CAS on
`*prev` succeeds, removing `curr`; `list_hp_clear` runs before the retire.
Result: (return value, chain after, slot row after). -/
def list_delete (chain : List Node) (K : Nat) (slots : List Nat) :
    Bool × List Node × List Nat :=
  let f := findAux K chain
  if f.1 then (true, chain.eraseIdx f.2, list_hp_clear slots)
  else (false, chain, list_hp_clear slots)

/-- The word `list_insert` stores into the fresh node's `next` just before
the linking CAS (part_000:348-349, `atomic_store_explicit(&node->next,
(uintptr_t)curr, memory_order_relaxed)`): the raw value of `curr`.  In a
sequential run `curr` at every `__list_find` return site holds the plain
node address (the only assignment that could leave a marked raw value, line
325 reached through the retire branch, is unreachable); the stored word is
therefore the address of the chain node `find` stopped at.  `none` when
`find` returned true (the store is never reached). -/
def insertLinkWord (chain : List Node) (K : Nat) : Option Nat :=
  let f := findAux K chain
  if f.1 then none
  else (chain.get? f.2).map Node.addr

/-! ## The ordered (rbtree.h) list variant, sequential executions

`__list_find_ordered` (rbtree.h:1186-1258) walks with a do-loop that steps
onto a node before testing it, so the key-0 head sentinel stays in front and
is never compared, and `curr` can be the tail sentinel.  The chain state for
this variant is the list of real nodes strictly between the sentinels. -/

/-- Sequential `__list_find_ordered` on a mark-free chain of real nodes
(index = position among real nodes; index `reals.length` = the tail).  The
do-loop `while (is_marked(next) || get_unmarked_node(curr)->key < *key)`
stops at the first node with key >= K, or at the tail, whose key
`UINTPTR_MAX` is then compared; with no marked node the post-loop
`atomic_load(prev) == get_unmarked(curr)` check holds and the function
returns `curr->key == *key` directly. -/
def findOrdAux (K : Nat) : List Node → Bool × Nat
  | [] => (tailKey == K, 0)
  | c :: rest =>
    if c.key < K then
      let r := findOrdAux K rest
      (r.1, r.2 + 1)
    else (c.key == K, 0)

/-- Sequential `list_delete_once` (rbtree.h:1304-1338) on a mark-free chain
of real nodes, with one interference injection point: `alreadyMarked` is
whether the `atomic_fetch_or(&curr->next, 0x01)` (line 1315) finds the mark
bit already set there - sequentially impossible, but another thread can set
it between `find` and the `fetch_or`.  In that case the code returns true
immediately (line 1316-1317) WITHOUT `list_hp_clear`.  Otherwise the unlink
CAS succeeds sequentially, `list_hp_clear` runs, `curr` is retired.  On a
miss: `list_hp_clear`, return false.  Result: (return value, chain after,
slot row after). -/
def list_delete_once (reals : List Node) (K : Nat) (slots : List Nat)
    (alreadyMarked : Bool) : Bool × List Node × List Nat :=
  let f := findOrdAux K reals
  if f.1 then
    if alreadyMarked then (true, reals, slots)
    else (true, reals.eraseIdx f.2, list_hp_clear slots)
  else (false, reals, list_hp_clear slots)

/-- Key of the node `__list_find_ordered` leaves in `*par_curr` when it
reports index `i`: a real node's key at `i < reals.length`, the tail
sentinel's key `UINTPTR_MAX` at index `reals.length` (the ordered walk does
step onto the tail). -/
def ordKeyAt (reals : List Node) (i : Nat) : Nat :=
  match reals.get? i with
  | some c => c.key
  | none => tailKey

/-- Sequential `list_insert_conti` (rbtree.h:1260-1296) on a mark-free chain
of real nodes.  `na` is the address of the fresh node.  When
`__list_find_ordered` returns true the fresh node is destroyed and the chain
unchanged; otherwise `node->next` is set to `curr` and the CAS on `*prev`
(which cannot fail sequentially) links the node right before `curr` -
appending before the tail when the find stopped there.  Both paths run
`list_hp_clear`.  Result: (return value, chain after, slot row after). -/
def list_insert_conti (reals : List Node) (K na : Nat) (slots : List Nat) :
    Bool × List Node × List Nat :=
  let f := findOrdAux K reals
  if f.1 then (false, reals, list_hp_clear slots)
  else (true, reals.insertIdx f.2 ⟨na, K, false⟩, list_hp_clear slots)

/-- The word `list_insert_conti` stores into the fresh node's `next` just
before the linking CAS (rbtree.h:1275-1276, `atomic_store_explicit(
&node->next, (uintptr_t)curr, memory_order_relaxed)`): the raw value of
`curr`.  In a mark-free sequential run every assignment to `curr` in
`__list_find_ordered` leaves a plain address (line 1218 even applies
`get_unmarked` explicitly), so the stored word is the address of the real
node the find stopped at, or the tail sentinel's address `tailAddr` when it
stopped on the tail.  `none` when the find returned true (the store is never
reached). -/
def insertLinkWordOrd (reals : List Node) (tailAddr : Nat) (K : Nat) :
    Option Nat :=
  let f := findOrdAux K reals
  if f.1 then none
  else
    match reals.get? f.2 with
    | some c => some c.addr
    | none => some tailAddr

/-! ## Helper lemmas on the sequential find -/

/-- Unfolding equation of `findAux` for a chain with at least two nodes. -/
theorem findAux_cons (K : Nat) (c : Node) (rest : List Node) (h : rest ≠ []) :
    findAux K (c :: rest) =
      if c.marked then (false, 0)
      else if c.key < K then ((findAux K rest).1, (findAux K rest).2 + 1)
      else (c.key == K, 0) := by
  cases rest with
  | nil => exact absurd rfl h
  | cons c2 rest2 => rfl

/-- The index `findAux` reports is always inside the chain: the sequential
conservative find never leaves `curr` on the tail sentinel. -/
theorem findAux_idx_lt (K : Nat) :
    ∀ chain : List Node, chain ≠ [] → (findAux K chain).2 < chain.length
  | [c], _ => by simp [findAux]
  | c :: c2 :: rest, _ => by
    rw [findAux_cons K c (c2 :: rest) (by simp)]
    by_cases hm : c.marked = true
    · simp [hm]
    · by_cases hk : c.key < K
      · have ih := findAux_idx_lt K (c2 :: rest) (by simp)
        rw [if_neg hm, if_pos hk]
        simp only [List.length_cons] at ih ⊢
        omega
      · simp [hm, hk]

/-- When the sequential find returns true, the node it reports is an unmarked
chain node carrying exactly the searched key, and it is not the last node
before the tail. -/
theorem findAux_true_spec (K : Nat) :
    ∀ chain : List Node, (findAux K chain).1 = true →
      ∃ c, chain.get? (findAux K chain).2 = some c ∧ c.key = K ∧
        c.marked = false ∧ (findAux K chain).2 + 1 < chain.length
  | [], h => by simp [findAux] at h
  | [c], h => by simp [findAux] at h
  | c :: c2 :: rest, h => by
    rw [findAux_cons K c (c2 :: rest) (by simp)] at h ⊢
    by_cases hm : c.marked = true
    · simp [hm] at h
    · by_cases hk : c.key < K
      · simp only [hm, hk, if_true, if_false, Bool.false_eq_true] at h ⊢
        obtain ⟨c', h1, h2, h3, h4⟩ := findAux_true_spec K (c2 :: rest) h
        exact ⟨c', by simpa using h1, h2, h3, by simpa using h4⟩
      · simp only [hm, hk, if_true, if_false, Bool.false_eq_true] at h ⊢
        refine ⟨c, rfl, by simpa using h, by simpa using hm, by simp⟩

/-- When every node of `front` is unmarked with key below `K`, the sequential
find walks the whole chain `front ++ [last]` and stops on its last node
(returning false there): the end-of-list break fires with `curr` on the node
whose successor is the tail. -/
theorem findAux_all_lt (K : Nat) :
    ∀ (front : List Node) (last : Node),
      (∀ c ∈ front, c.key < K ∧ c.marked = false) →
      findAux K (front ++ [last]) = (false, front.length)
  | [], last, _ => by simp [findAux]
  | c :: fr, last, h => by
    have hc := h c (by simp)
    have ih := findAux_all_lt K fr last (fun c' hc' => h c' (by simp [hc']))
    rw [List.cons_append, findAux_cons K c (fr ++ [last]) (by simp), ih]
    simp [hc.1, hc.2]

/-- When no node of `front` carries the key `K`, the sequential find on
`front ++ [last]` returns false (the last chain node's key is never compared;
the code breaks out at the tail check first). -/
theorem findAux_not_found (K : Nat) :
    ∀ (front : List Node) (last : Node),
      (∀ c ∈ front, c.key ≠ K) → (findAux K (front ++ [last])).1 = false
  | [], last, _ => by simp [findAux]
  | c :: fr, last, h => by
    rw [List.cons_append, findAux_cons K c (fr ++ [last]) (by simp)]
    by_cases hm : c.marked = true
    · simp [hm]
    · by_cases hk : c.key < K
      · have ih := findAux_not_found K fr last
          (fun c' hc' => h c' (List.mem_cons_of_mem _ hc'))
        simp [hm, hk, ih]
      · have hne : c.key ≠ K := h c (List.mem_cons_self _ _)
        simp [hm, hk, hne]

/-- A fresh unmarked node with the searched key placed at the head of a
nonempty chain is found immediately. -/
theorem findAux_fresh_cons (K na : Nat) (c : Node) (rest : List Node) :
    findAux K (⟨na, K, false⟩ :: c :: rest) = (true, 0) := by
  rw [findAux_cons K _ (c :: rest) (by simp)]
  simp

/-- After a sequential miss, linking a fresh node with the searched key at
the index the find reported makes the next sequential find return true at
that same index. -/
theorem findAux_insertIdx (K na : Nat) :
    ∀ chain : List Node, chain ≠ [] → (findAux K chain).1 = false →
      findAux K (chain.insertIdx (findAux K chain).2 ⟨na, K, false⟩)
        = (true, (findAux K chain).2)
  | [c], _, _ => by
    simp only [findAux, List.insertIdx]
    exact findAux_fresh_cons K na c []
  | c :: c2 :: rest, _, hf => by
    rw [findAux_cons K c (c2 :: rest) (by simp)] at hf ⊢
    by_cases hm : c.marked = true
    · simp only [hm, if_true]
      exact findAux_fresh_cons K na c (c2 :: rest)
    · by_cases hk : c.key < K
      · simp only [hm, hk, if_true, if_false, Bool.false_eq_true] at hf ⊢
        have hf' : (findAux K (c2 :: rest)).1 = false := hf
        have ih := findAux_insertIdx K na (c2 :: rest) (by simp) hf'
        rw [List.insertIdx_succ_cons,
          findAux_cons K c (List.insertIdx (findAux K (c2 :: rest)).2
            ⟨na, K, false⟩ (c2 :: rest)) ?hne, ih]
        · simp [hm, hk]
        case hne =>
          have hlen : (findAux K (c2 :: rest)).2 < (c2 :: rest).length :=
            findAux_idx_lt K (c2 :: rest) (by simp)
          have hl2 := @List.length_insertIdx Node ⟨na, K, false⟩
            (findAux K (c2 :: rest)).2 (c2 :: rest) (Nat.le_of_lt hlen)
          intro hnil
          rw [hnil] at hl2
          simp at hl2
      · simp only [hm, hk, if_true, if_false] at hf ⊢
        exact findAux_fresh_cons K na c (c2 :: rest)

/-- Every slot value is 0 after `list_hp_clear`. -/
theorem list_hp_clear_all_zero (slots : List Nat) :
    ∀ v ∈ list_hp_clear slots, v = 0 := by
  intro v hv
  simp [list_hp_clear] at hv
  exact hv.2

/-- Element lookup in a replicated list. -/
theorem replicate_get? {α : Type} (a : α) :
    ∀ (n m : Nat), m < n → (List.replicate n a).get? m = some a
  | _ + 1, 0, _ => rfl
  | n + 1, m + 1, h =>
    replicate_get? a n m (Nat.lt_of_succ_lt_succ h)

/-! ## Helper lemmas on the sequential ordered find -/

/-- The ordered find's return value is literally the comparison of the
stopped-on node's key (the tail key at the tail) with the searched key. -/
theorem findOrdAux_key_iff (K : Nat) :
    ∀ reals : List Node,
      (findOrdAux K reals).1 = (ordKeyAt reals (findOrdAux K reals).2 == K)
  | [] => by simp [findOrdAux, ordKeyAt]
  | c :: rest => by
    by_cases hk : c.key < K
    · have ih := findOrdAux_key_iff K rest
      have hshift : ordKeyAt (c :: rest) ((findOrdAux K rest).2 + 1)
          = ordKeyAt rest (findOrdAux K rest).2 := rfl
      simp only [findOrdAux, hk, if_true]
      rw [hshift]
      exact ih
    · simp [findOrdAux, hk, ordKeyAt]

/-- When the searched key is not the tail key and every real node's key is
below it, the ordered find walks the whole chain and stops on the tail
sentinel (index `reals.length`), returning false there. -/
theorem findOrdAux_all_lt (K : Nat) (hKt : K ≠ tailKey) :
    ∀ reals : List Node, (∀ c ∈ reals, c.key < K) →
      findOrdAux K reals = (false, reals.length)
  | [], _ => by
    have hb : (tailKey == K) = false := beq_eq_false_iff_ne.mpr (Ne.symm hKt)
    simp [findOrdAux, hb]
  | c :: rest, h => by
    have hc := h c (by simp)
    have ih := findOrdAux_all_lt K hKt rest (fun c' hc' => h c' (by simp [hc']))
    simp [findOrdAux, hc, ih]

/-- When the searched key is not the tail key and no real node carries it,
the ordered find returns false. -/
theorem findOrdAux_not_found (K : Nat) (hKt : K ≠ tailKey) :
    ∀ reals : List Node, (∀ c ∈ reals, c.key ≠ K) →
      (findOrdAux K reals).1 = false
  | [], _ => by
    have hb : (tailKey == K) = false := beq_eq_false_iff_ne.mpr (Ne.symm hKt)
    simp [findOrdAux, hb]
  | c :: rest, h => by
    by_cases hk : c.key < K
    · have ih := findOrdAux_not_found K hKt rest
        (fun c' hc' => h c' (List.mem_cons_of_mem _ hc'))
      simp [findOrdAux, hk, ih]
    · have hb : (c.key == K) = false :=
        beq_eq_false_iff_ne.mpr (h c (List.mem_cons_self _ _))
      simp [findOrdAux, hk, hb]

/-- After an ordered-find miss, linking a fresh node with the searched key
at the index the find reported makes the next ordered find return true at
that same index. -/
theorem findOrdAux_insertIdx (K na : Nat) :
    ∀ reals : List Node, (findOrdAux K reals).1 = false →
      findOrdAux K (reals.insertIdx (findOrdAux K reals).2 ⟨na, K, false⟩)
        = (true, (findOrdAux K reals).2)
  | [], _ => by
    simp [findOrdAux, List.insertIdx]
  | c :: rest, hf => by
    by_cases hk : c.key < K
    · simp only [findOrdAux, hk, if_true] at hf ⊢
      have ih := findOrdAux_insertIdx K na rest hf
      simp only [List.insertIdx] at ih
      rw [ih]
    · rw [show (findOrdAux K (c :: rest)).2 = 0 by simp [findOrdAux, hk]]
      simp [findOrdAux, hk]

/-! ## Claim theorems -/

/-- Claim C1, the code evaluated at the failing input: with no thread
publishing anything (every slot of every thread holds 0), a thread whose
retire list holds 10 retires 20.  The scan runs, deletes 10, and then skips
the entry 20 that the compaction slid into the freed position: 20 is
unprotected yet stays in the retire list, so the scan does not delete and
remove every unprotected retiree. -/
theorem scan_skips_unprotected_follower :
    list_hp_retire
        (List.replicate HP_MAX_THREADS (List.replicate HP_MAX_HPS 0)) [10] 20
      = ([20], [10], true) := by
  decide

/-- Claim C2, counterexample: on the list state right after `list_new` (the
chain holds only the key-0 head sentinel; tail is its successor), `find(0)`
returns false although the `curr` it reports carries key `0 = K` — the
claimed equivalence fails right to left — and that `curr` is the head
sentinel, not the tail sentinel (index `chain.length` would be the tail),
although the traversal reached the tail without finding the key. -/
theorem find_zero_on_empty_counterexample :
    (findAux 0 [⟨0, 0, false⟩]).1 = false
    ∧ (([⟨0, 0, false⟩] : List Node).get? (findAux 0 [⟨0, 0, false⟩]).2).map
        Node.key = some 0
    ∧ (findAux 0 [⟨0, 0, false⟩]).2 ≠ ([⟨0, 0, false⟩] : List Node).length := by
  decide

/-- Claim C2, amended, per find routine.  With no concurrent mutator:
the conservative `__list_find` returns true only if the node it reports as
`curr` is an unmarked chain node whose key equals `K` (never the last node
before the tail), and whenever every node before the last is unmarked with
key below `K` — the traversal reaches the tail sentinel without finding `K`
— it returns false with `curr` equal to the last chain node before the tail
(in reachable states the drifted key-0 head sentinel), not the tail itself.
The ordered `__list_find_ordered` (on a mark-free chain) satisfies the
original statement: it returns true exactly when the node it stops on —
possibly the tail sentinel, whose key is `UINTPTR_MAX` — has key equal to
`K`, and when `K` is not the tail key and every real node's key is below
`K` it returns false with `curr` equal to the tail. -/
theorem find_sequential_contract (chain reals : List Node) (K : Nat) :
    ((findAux K chain).1 = true →
      ∃ c, chain.get? (findAux K chain).2 = some c ∧ c.key = K ∧
        c.marked = false ∧ (findAux K chain).2 + 1 < chain.length)
    ∧ (∀ (front : List Node) (last : Node), chain = front ++ [last] →
        (∀ c ∈ front, c.key < K ∧ c.marked = false) →
        findAux K chain = (false, front.length))
    ∧ (findOrdAux K reals).1 = (ordKeyAt reals (findOrdAux K reals).2 == K)
    ∧ (K ≠ tailKey → (∀ c ∈ reals, c.key < K) →
        findOrdAux K reals = (false, reals.length)) := by
  refine ⟨findAux_true_spec K chain, ?_, findOrdAux_key_iff K reals, ?_⟩
  · intro front last hdec hall
    rw [hdec]
    exact findAux_all_lt K front last hall
  · intro hKt hall
    exact findOrdAux_all_lt K hKt reals hall

/-- Witness for the amended C2 theorem: searching 7 in the conservative
chain of one real node with key 3 followed by the drifted head sentinel
stops on the sentinel (index 1, the last node before tail) and reports
false; the ordered find on the one-real-node chain stops on the tail
(index 1 = the chain length) and reports false. -/
theorem find_sequential_contract_witness :
    findAux 7 [⟨0, 3, false⟩, ⟨0, 0, false⟩] = (false, 1)
    ∧ findOrdAux 7 [⟨0, 3, false⟩] = (false, 1) :=
  ⟨(find_sequential_contract [⟨0, 3, false⟩, ⟨0, 0, false⟩] [⟨0, 3, false⟩]
      7).2.1 [⟨0, 3, false⟩] ⟨0, 0, false⟩ rfl (by decide),
   (find_sequential_contract [⟨0, 3, false⟩, ⟨0, 0, false⟩] [⟨0, 3, false⟩]
      7).2.2.2 (by decide) (by decide)⟩

/-- Claim C3: in a sequential execution of either insert variant, the word
stored into the fresh node's `next` just before the linking CAS
(part_000:348-349 for `list_insert`, rbtree.h:1275-1276 for
`list_insert_conti`) is the raw `curr` value, which is the address of the
node the find stopped at (for the ordered variant possibly the tail
sentinel); since every node address comes from `aligned_alloc(128, ...)` and
is even, that word has the mark bit clear and equals its own `get_unmarked`
— a newly linked node never starts life with a logically-deletion-marked
`next` word. -/
theorem insert_link_word_mark_clear (chain reals : List Node)
    (tailAddr K : Nat) (haddr : ∀ c ∈ chain, c.addr % 2 = 0)
    (haddrOrd : ∀ c ∈ reals, c.addr % 2 = 0) (htail : tailAddr % 2 = 0) :
    (∀ w, insertLinkWord chain K = some w →
      is_marked w = false ∧ get_unmarked w = w)
    ∧ (∀ w, insertLinkWordOrd reals tailAddr K = some w →
      is_marked w = false ∧ get_unmarked w = w) := by
  constructor
  · intro w hw
    unfold insertLinkWord at hw
    by_cases hf : (findAux K chain).1 = true
    · simp [hf] at hw
    · rw [if_neg (by simpa using hf)] at hw
      rw [Option.map_eq_some'] at hw
      obtain ⟨c, hc, hcw⟩ := hw
      have hmem : c ∈ chain := List.get?_mem hc
      have he : c.addr % 2 = 0 := haddr c hmem
      subst hcw
      refine ⟨?_, ?_⟩
      · simp [is_marked, he]
      · simp [get_unmarked, he]
  · intro w hw
    unfold insertLinkWordOrd at hw
    by_cases hf : (findOrdAux K reals).1 = true
    · simp [hf] at hw
    · rw [if_neg (by simpa using hf)] at hw
      have he : w % 2 = 0 := by
        cases hg : reals.get? (findOrdAux K reals).2 with
        | none =>
          rw [hg] at hw
          have : tailAddr = w := by simpa using hw
          subst this
          exact htail
        | some c =>
          rw [hg] at hw
          have : c.addr = w := by simpa using hw
          subst this
          exact haddrOrd c (List.get?_mem hg)
      refine ⟨?_, ?_⟩
      · simp [is_marked, he]
      · simp [get_unmarked, he]

/-- Witness for C3: inserting key 5 into the post-`list_new` conservative
chain (head sentinel at address 256) stores the word 256, unmarked; the
ordered insert into the empty chain (tail sentinel at address 512) stores
the tail's address 512, unmarked. -/
theorem insert_link_word_mark_clear_witness :
    (is_marked 256 = false ∧ get_unmarked 256 = 256)
    ∧ (is_marked 512 = false ∧ get_unmarked 512 = 512) :=
  ⟨(insert_link_word_mark_clear [⟨256, 0, false⟩] [] 512 5 (by decide)
      (by decide) (by decide)).1 256 (by decide),
   (insert_link_word_mark_clear [⟨256, 0, false⟩] [] 512 5 (by decide)
      (by decide) (by decide)).2 512 (by decide)⟩

/-- Claim C4: with `HP_THRESHOLD_R` hard-coded to 0, the early-return branch
of `list_hp_retire` is never taken: in the array form the scan runs on every
retire (third component true), and in the indexed form the count test
`cnt + 1 < 0` after `rbtree_insert` never holds either. -/
theorem retire_threshold_branch_never_taken (slots : List (List Nat))
    (rl : List Nat) (ptr cnt : Nat) :
    (list_hp_retire slots rl ptr).2.2 = true
    ∧ list_hp_retire_tree_scans cnt = true := by
  constructor
  · simp [list_hp_retire, HP_THRESHOLD_R]
  · simp [list_hp_retire_tree_scans, HP_THRESHOLD_R]

/-- Claim C5, counterexample: `list_delete_once` on a chain holding key 5,
called with `K = 5`, while the victim's `next` word turns out already marked
at the `atomic_fetch_or` (another thread got there first), returns true
through the early return of rbtree.h:1316-1317, which skips `list_hp_clear`:
the calling thread's hazard slots (here holding the nonzero protections 6,
7, 8, 9 that the find published) are returned untouched, not all 0. -/
theorem delete_once_already_marked_keeps_slots :
    (list_delete_once [⟨256, 5, false⟩] 5 [6, 7, 8, 9] true).1 = true
    ∧ (list_delete_once [⟨256, 5, false⟩] 5 [6, 7, 8, 9] true).2.2
        = [6, 7, 8, 9]
    ∧ ¬(∀ v ∈ (list_delete_once [⟨256, 5, false⟩] 5 [6, 7, 8, 9] true).2.2,
          v = 0) := by
  decide

/-- Claim C5, amended: after every return of the conservative `list_delete`
every hazard slot of the calling thread holds 0; and the same holds for the
indexed variant's `list_delete_once` on every path except its already-marked
early return, which returns true with the slot row exactly as it was (the
protections published by the find are not cleared). -/
theorem delete_clears_slots_except_marked_fastpath (chain reals : List Node)
    (K : Nat) (s1 s2 : List Nat) (am : Bool) :
    (∀ v ∈ (list_delete chain K s1).2.2, v = 0)
    ∧ ((findOrdAux K reals).1 = true → am = true →
        (list_delete_once reals K s2 am).2.2 = s2)
    ∧ ((findOrdAux K reals).1 = false ∨ am = false →
        ∀ v ∈ (list_delete_once reals K s2 am).2.2, v = 0) := by
  refine ⟨?_, ?_, ?_⟩
  · unfold list_delete
    by_cases hf : (findAux K chain).1 = true
    · simpa [hf] using list_hp_clear_all_zero s1
    · rw [if_neg (by simpa using hf)]
      exact list_hp_clear_all_zero s1
  · intro h1 h2
    simp [list_delete_once, h1, h2]
  · intro h
    unfold list_delete_once
    rcases h with h | h
    · rw [if_neg (by simp [h])]
      exact list_hp_clear_all_zero s2
    · by_cases hf : (findOrdAux K reals).1 = true
      · rw [if_pos (by simp [hf]), if_neg (by simp [h])]
        exact list_hp_clear_all_zero s2
      · rw [if_neg (by simpa using hf)]
        exact list_hp_clear_all_zero s2

/-- Witness for the amended C5 theorem: the already-marked early return of
`list_delete_once` hands back the slot row `[9, 9, 9, 9]` unchanged. -/
theorem delete_clears_slots_witness :
    (list_delete_once [⟨256, 5, false⟩] 5 [9, 9, 9, 9] true).2.2
      = [9, 9, 9, 9] :=
  (delete_clears_slots_except_marked_fastpath [] [⟨256, 5, false⟩] 5 [0]
    [9, 9, 9, 9] true).2.1 (by decide) rfl

/-- Claim C6: on a list (find-)containing key `K`, either insert variant
returns false and leaves the chain unchanged (the fresh node is destroyed,
never linked); in particular, starting from any reachable chain (nonempty
for the conservative variant; any real-node chain, including the empty one,
for the ordered variant), the second of two consecutive `insert(K)` calls
returns false. -/
theorem insert_duplicate_returns_false (chain reals : List Node)
    (K na na' nb nb' : Nat) (s1 s2 s3 s4 : List Nat) (hne : chain ≠ []) :
    ((findAux K chain).1 = true →
      list_insert chain K na s1 = (false, chain, list_hp_clear s1))
    ∧ (list_insert (list_insert chain K na s1).2.1 K na' s2).1 = false
    ∧ ((findOrdAux K reals).1 = true →
      list_insert_conti reals K nb s3 = (false, reals, list_hp_clear s3))
    ∧ (list_insert_conti (list_insert_conti reals K nb s3).2.1 K nb' s4).1
        = false := by
  refine ⟨?_, ?_, ?_, ?_⟩
  · intro h
    simp [list_insert, h]
  · by_cases hf : (findAux K chain).1 = true
    · simp [list_insert, hf]
    · have hf' : (findAux K chain).1 = false := by simpa using hf
      have hins := findAux_insertIdx K na chain hne hf'
      simp [list_insert, hf', hins]
  · intro h
    simp [list_insert_conti, h]
  · by_cases hf : (findOrdAux K reals).1 = true
    · simp [list_insert_conti, hf]
    · have hf' : (findOrdAux K reals).1 = false := by simpa using hf
      have hins := findOrdAux_insertIdx K nb reals hf'
      simp [list_insert_conti, hf', hins]

/-- Witness for C6: inserting key 5 twice into the post-`list_new`
conservative chain, the second insert returns false; likewise for the
ordered variant starting from the empty real-node chain. -/
theorem insert_duplicate_returns_false_witness :
    ((findAux 5 [(⟨0, 0, false⟩ : Node)]).1 = true →
      list_insert [⟨0, 0, false⟩] 5 256 [0, 0, 0]
        = (false, [⟨0, 0, false⟩], list_hp_clear [0, 0, 0]))
    ∧ (list_insert (list_insert [⟨0, 0, false⟩] 5 256 [0, 0, 0]).2.1 5 512
        [0, 0, 0]).1 = false
    ∧ ((findOrdAux 5 ([] : List Node)).1 = true →
      list_insert_conti [] 5 256 [0, 0, 0, 0]
        = (false, [], list_hp_clear [0, 0, 0, 0]))
    ∧ (list_insert_conti (list_insert_conti [] 5 256 [0, 0, 0, 0]).2.1 5 512
        [0, 0, 0, 0]).1 = false :=
  insert_duplicate_returns_false [⟨0, 0, false⟩] [] 5 256 512 256 512
    [0, 0, 0] [0, 0, 0] [0, 0, 0, 0] [0, 0, 0, 0] (by decide)

/-- Claim C7: on a list not containing key `K`, either delete variant
returns false and removes no node — for the conservative variant, no node
before the final pre-tail sentinel carries `K` (the empty list `[head0]` is
an instance); for the ordered variant, no real node carries `K` and `K` is
not the tail-sentinel key (the empty real-node chain is an instance).  And
in the sequence `insert(K); delete(K); delete(K)` of either variant the
delete in the middle returns true and restores the original chain, so the
second delete returns false. -/
theorem delete_absent_returns_false (chain reals : List Node) (K na nb : Nat)
    (s1 s2 s3 s4 s5 s6 s7 s8 : List Nat) (hne : chain ≠ [])
    (habs : ∀ c ∈ chain.dropLast, c.key ≠ K)
    (habsOrd : ∀ c ∈ reals, c.key ≠ K) (hKt : K ≠ tailKey) :
    (list_delete chain K s1).1 = false
    ∧ (list_delete chain K s1).2.1 = chain
    ∧ (list_delete (list_insert chain K na s2).2.1 K s3).1 = true
    ∧ (list_delete
        (list_delete (list_insert chain K na s2).2.1 K s3).2.1 K s4).1
        = false
    ∧ (list_delete_once reals K s5 false).1 = false
    ∧ (list_delete_once reals K s5 false).2.1 = reals
    ∧ (list_delete_once (list_insert_conti reals K nb s6).2.1 K s7 false).1
        = true
    ∧ (list_delete_once
        (list_delete_once (list_insert_conti reals K nb s6).2.1 K s7
          false).2.1 K s8 false).1 = false := by
  have hdec : chain = chain.dropLast ++ [chain.getLast hne] :=
    (List.dropLast_append_getLast hne).symm
  have hfind : (findAux K chain).1 = false := by
    rw [hdec]
    exact findAux_not_found K chain.dropLast (chain.getLast hne) habs
  have hins := findAux_insertIdx K na chain hne hfind
  have herase :
      (List.insertIdx (findAux K chain).2 ⟨na, K, false⟩ chain).eraseIdx
        (findAux K chain).2 = chain :=
    List.eraseIdx_insertIdx (findAux K chain).2 chain
  have hfindOrd : (findOrdAux K reals).1 = false :=
    findOrdAux_not_found K hKt reals habsOrd
  have hinsOrd := findOrdAux_insertIdx K nb reals hfindOrd
  have heraseOrd :
      (List.insertIdx (findOrdAux K reals).2 ⟨nb, K, false⟩ reals).eraseIdx
        (findOrdAux K reals).2 = reals :=
    List.eraseIdx_insertIdx (findOrdAux K reals).2 reals
  refine ⟨?_, ?_, ?_, ?_, ?_, ?_, ?_, ?_⟩
  · simp [list_delete, hfind]
  · simp [list_delete, hfind]
  · simp [list_delete, list_insert, hfind, hins]
  · simp [list_delete, list_insert, hfind, hins, herase]
  · simp [list_delete_once, hfindOrd]
  · simp [list_delete_once, hfindOrd]
  · simp [list_delete_once, list_insert_conti, hfindOrd, hinsOrd]
  · simp [list_delete_once, list_insert_conti, hfindOrd, hinsOrd, heraseOrd]

/-- Witness for C7: deleting key 5 from the post-`list_new` conservative
chain returns false, and in `insert(5); delete(5); delete(5)` the second
delete returns false; likewise for the ordered variant starting from the
empty real-node chain (deleting from the empty list returns false). -/
theorem delete_absent_returns_false_witness :
    (list_delete [(⟨0, 0, false⟩ : Node)] 5 [0, 0, 0]).1 = false
    ∧ (list_delete [(⟨0, 0, false⟩ : Node)] 5 [0, 0, 0]).2.1
        = [(⟨0, 0, false⟩ : Node)]
    ∧ (list_delete (list_insert [⟨0, 0, false⟩] 5 256 [0, 0, 0]).2.1 5
        [0, 0, 0]).1 = true
    ∧ (list_delete
        (list_delete (list_insert [⟨0, 0, false⟩] 5 256 [0, 0, 0]).2.1 5
          [0, 0, 0]).2.1 5 [0, 0, 0]).1 = false
    ∧ (list_delete_once ([] : List Node) 5 [0, 0, 0, 0] false).1 = false
    ∧ (list_delete_once ([] : List Node) 5 [0, 0, 0, 0] false).2.1 = []
    ∧ (list_delete_once (list_insert_conti [] 5 256 [0, 0, 0, 0]).2.1 5
        [0, 0, 0, 0] false).1 = true
    ∧ (list_delete_once
        (list_delete_once (list_insert_conti [] 5 256 [0, 0, 0, 0]).2.1 5
          [0, 0, 0, 0] false).2.1 5 [0, 0, 0, 0] false).1 = false :=
  delete_absent_returns_false [⟨0, 0, false⟩] [] 5 256 256 [0, 0, 0]
    [0, 0, 0] [0, 0, 0] [0, 0, 0] [0, 0, 0, 0] [0, 0, 0, 0] [0, 0, 0, 0]
    [0, 0, 0, 0] (by decide) (by decide) (by decide) (by decide)

/-- Claim C8: on a list not containing key `K`, with `K` neither the
head-sentinel key 0 nor the tail-sentinel key, the sequential round trip
`insert(K); delete(K); insert(K)` has all three operations return true. -/
theorem insert_delete_insert_round_trip (chain : List Node) (K na na' : Nat)
    (s1 s2 s3 : List Nat) (hne : chain ≠ [])
    (habs : ∀ c ∈ chain.dropLast, c.key ≠ K) (_hK0 : K ≠ 0)
    (_hKt : K ≠ tailKey) :
    (list_insert chain K na s1).1 = true
    ∧ (list_delete (list_insert chain K na s1).2.1 K s2).1 = true
    ∧ (list_insert
        (list_delete (list_insert chain K na s1).2.1 K s2).2.1 K na' s3).1
        = true := by
  have hdec : chain = chain.dropLast ++ [chain.getLast hne] :=
    (List.dropLast_append_getLast hne).symm
  have hfind : (findAux K chain).1 = false := by
    rw [hdec]
    exact findAux_not_found K chain.dropLast (chain.getLast hne) habs
  have hins := findAux_insertIdx K na chain hne hfind
  have herase :
      (List.insertIdx (findAux K chain).2 ⟨na, K, false⟩ chain).eraseIdx
        (findAux K chain).2 = chain :=
    List.eraseIdx_insertIdx (findAux K chain).2 chain
  refine ⟨?_, ?_, ?_⟩
  · simp [list_insert, hfind]
  · simp [list_insert, list_delete, hfind, hins]
  · simp [list_insert, list_delete, hfind, hins, herase]

/-- Witness for C8: on the post-`list_new` chain with `K = 5`, all three of
`insert(5); delete(5); insert(5)` return true. -/
theorem insert_delete_insert_round_trip_witness :
    (list_insert [(⟨0, 0, false⟩ : Node)] 5 256 [0, 0, 0]).1 = true
    ∧ (list_delete (list_insert [(⟨0, 0, false⟩ : Node)] 5 256
        [0, 0, 0]).2.1 5 [0, 0, 0]).1 = true
    ∧ (list_insert
        (list_delete (list_insert [(⟨0, 0, false⟩ : Node)] 5 256
          [0, 0, 0]).2.1 5 [0, 0, 0]).2.1 5 512 [0, 0, 0]).1 = true :=
  insert_delete_insert_round_trip [⟨0, 0, false⟩] 5 256 512 [0, 0, 0]
    [0, 0, 0] [0, 0, 0] (by decide) (by decide) (by decide) (by decide)

/-- Claim C9: the clean-up walk of the retire-index tree passes every record
of the tree to the deleter exactly once — the multiset of records it visits
is exactly the multiset of records stored in the tree. -/
theorem rbtree_clean_visits_every_record_once (t : RBTree) (d : Nat) :
    (rbtree_clean_visits t).count d = (treeRecords t).count d := by
  induction t with
  | nil => rfl
  | node x l r ihl ihr =>
    simp only [rbtree_clean_visits, treeRecords, List.count_append,
      List.count_cons, ihl, ihr]
    omega

/-- Claim C10: right after `list_hp_new(max_hps, deleter)` (either form),
every slot `j < max_hps` of every thread `i` holds 0, and every per-thread
retire container is empty: the array form an empty list, the indexed form
the sentinel-only tree with count 0. -/
theorem list_hp_new_initial_state (mh i j : Nat) (hi : i < HP_MAX_THREADS)
    (_hj : j < (list_hp_new mh).max_hps) (hj2 : j < CLPAD * 2) :
    ((list_hp_new mh).hp.get? i).bind (fun row => row.get? j) = some 0
    ∧ (list_hp_new mh).rl.get? i = some []
    ∧ ((list_hp_new_tree mh).hp.get? i).bind (fun row => row.get? j)
        = some 0
    ∧ (list_hp_new_tree mh).rl.get? i = some (RBTree.nil, 0) := by
  refine ⟨?_, ?_, ?_, ?_⟩
  · show ((List.replicate HP_MAX_THREADS
        (List.replicate (CLPAD * 2) (0 : Nat))).get? i).bind
        (fun row => row.get? j) = some 0
    rw [replicate_get? _ _ _ hi]
    simpa using replicate_get? (0 : Nat) (CLPAD * 2) j hj2
  · exact replicate_get? _ _ _ hi
  · show ((List.replicate HP_MAX_THREADS
        (List.replicate (CLPAD * 2) (0 : Nat))).get? i).bind
        (fun row => row.get? j) = some 0
    rw [replicate_get? _ _ _ hi]
    simpa using replicate_get? (0 : Nat) (CLPAD * 2) j hj2
  · exact replicate_get? _ _ _ hi

/-- Witness for C10: thread 0, slot 2, with the conservative list's
`list_hp_new(3, ...)` call. -/
theorem list_hp_new_initial_state_witness :
    ((list_hp_new 3).hp.get? 0).bind (fun row => row.get? 2) = some 0
    ∧ (list_hp_new 3).rl.get? 0 = some []
    ∧ ((list_hp_new_tree 3).hp.get? 0).bind (fun row => row.get? 2)
        = some 0
    ∧ (list_hp_new_tree 3).rl.get? 0 = some (RBTree.nil, 0) :=
  list_hp_new_initial_state 3 0 2 (by decide) (by decide) (by decide)

end HazardPtr
